import Mathlib

/-!
The program `main.go` of hwaas-api.

A shallow embedding of the helpers and handlers of `main.go` and proofs about them.

Go strings are modelled as `List Char` (the text of a valid UTF-8 string, one `Char` per
rune).  The one place where the program cuts a string at a byte offset, `l[0:1]` in
`getLanguage`, is modelled with the byte view of the first rune (`firstByteSlice`).

Library code the program calls (`regexp`, `path/filepath`, `strings`, `reflect`,
`encoding/json`, `gorilla/mux`) is embedded for the fragment the program uses.
-/

namespace Hwaas

/-! ## `strings` and `path/filepath` -/

/-- Go `strings.HasSuffix` followed by the cut: `strings.TrimSuffix(s, suffix)`. -/
def TrimSuffix (s suffix : List Char) : List Char :=
  if suffix.isSuffixOf s then s.take (s.length - suffix.length) else s

/-- Go `strings.TrimPrefix(s, pre)`. -/
def TrimPrefix (s pre : List Char) : List Char :=
  if pre.isPrefixOf s then s.drop pre.length else s

/-- The loop of `filepath.Ext`, run over the reversed path: `acc` holds the bytes already
passed (`path[i+1:]`).  The loop stops at a path separator (`os.IsPathSeparator`, `/` on
Unix) and returns `path[i:]` at the first `.` it meets. -/
def extLoop : List Char → List Char → List Char
  | [], _ => []
  | c :: cs, acc =>
    if c = '/' then []
    else if c = '.' then '.' :: acc
    else extLoop cs (c :: acc)

/-- Go `filepath.Ext(path)`: the suffix beginning at the final dot in the final element of
`path`; empty if there is no dot. -/
def Ext (path : List Char) : List Char :=
  extLoop path.reverse []

/-- Go `strings.Replace(s, old, new, 1)` for a non-empty `old`: the first occurrence of
`old` in `s` is replaced by `new`. -/
def ReplaceFirst (old new : List Char) : List Char → List Char
  | [] => []
  | c :: cs =>
    if old.isPrefixOf (c :: cs) then new ++ (c :: cs).drop old.length
    else c :: ReplaceFirst old new cs

/-- Go `unicode.ToLower(r)`.  On ASCII it is the shift of `A`..`Z`.  The case tables of the
standard library are not part of the program; the two entries whose lower case is an ASCII
letter (U+0130 LATIN CAPITAL LETTER I WITH DOT ABOVE and U+212A KELVIN SIGN) are given, every
other entry is read from the table `tbl`. -/
def unicodeToLower (tbl : Char → Char) (c : Char) : Char :=
  if c.val < 128 then c.toLower
  else if c = Char.ofNat 0x130 then 'i'
  else if c = Char.ofNat 0x212A then 'k'
  else tbl c

/-- Go `strings.ToLower(s)` on valid UTF-8 text: every rune is mapped by `unicode.ToLower`. -/
def ToLower (tbl : Char → Char) (s : List Char) : List Char :=
  s.map (unicodeToLower tbl)

/-! ## `regexp`: leftmost-first (backtracking) matching for the fragment in use -/

/-- Single-character classes of the patterns in `main.go` and of the route templates. -/
inductive CharClass where
  /-- A literal character, also an escaped one such as `\*`. -/
  | lit (c : Char)
  /-- The dot: any character except newline (no `s` flag). -/
  | anyNotNL
  /-- A range such as `[a-z]`. -/
  | range (lo hi : Char)
  /-- A negated single character such as `[^/]`. -/
  | notLit (c : Char)
  deriving DecidableEq, Repr

/-- Membership test of a character class. -/
def CharClass.test : CharClass → Char → Bool
  | .lit c, x => x == c
  | .anyNotNL, x => x != '\n'
  | .range lo hi, x => decide (lo.val ≤ x.val) && decide (x.val ≤ hi.val)
  | .notLit c, x => x != c

/-- Regular expressions: the operators that occur in the program. Repetition only occurs
on a single-character class (`.+`, `[^/]+`). -/
inductive Regex where
  | char (cls : CharClass)
  /-- Greedy `cls+`. -/
  | plus (cls : CharClass)
  /-- The assertion `^` (no `m` flag: beginning of text). -/
  | beginText
  /-- The assertion `$` (no `m` flag: end of text). -/
  | endText
  | cat (a b : Regex)
  /-- A capturing group. -/
  | cap (a : Regex)
  deriving DecidableEq, Repr

/-- Remainders of the input after a greedy `cls*`, in priority order: the longest
repetition first. -/
def starRests (cls : CharClass) : List Char → List (List Char)
  | [] => [[]]
  | c :: cs => if cls.test c then starRests cls cs ++ [c :: cs] else [c :: cs]

/-- Remainders of the input after a greedy `cls+`, in priority order. -/
def plusRests (cls : CharClass) : List Char → List (List Char)
  | [] => []
  | c :: cs => if cls.test c then starRests cls cs else []

/-- All ways `r` matches a prefix of the input `s`, in backtracking priority order
(leftmost-first semantics: the first element is the match the engine reports).  Each result
is the remaining input and the texts of the groups closed so far.  `n` is the length of the
whole text, so that the remaining input is the whole text exactly at its beginning. -/
def Regex.run (n : Nat) : Regex → List Char → List (List Char) →
    List (List Char × List (List Char))
  | .char cls, s, caps =>
    match s with
    | c :: cs => if cls.test c then [(cs, caps)] else []
    | [] => []
  | .plus cls, s, caps => (plusRests cls s).map (fun s' => (s', caps))
  | .beginText, s, caps => if s.length = n then [(s, caps)] else []
  | .endText, s, caps => if s.isEmpty then [(s, caps)] else []
  | .cat a b, s, caps => (run n a s caps).flatMap (fun t => run n b t.1 t.2)
  | .cap a, s, caps =>
    (run n a s caps).map (fun t => (t.1, t.2 ++ [s.take (s.length - t.1.length)]))

/-- One match: the matched text (`m[0]`) and the texts of the groups (`m[1]`, ...). -/
structure Match where
  text : List Char
  groups : List (List Char)
  deriving DecidableEq, Repr

/-- The match of `re` that begins exactly at the start of `s`, if there is one. -/
def Regex.exec (re : Regex) (n : Nat) (s : List Char) : Option Match :=
  match (re.run n s []).head? with
  | some t => some ⟨s.take (s.length - t.1.length), t.2⟩
  | none => none

/-- The loop of `(*Regexp).allMatches` for a pattern that cannot match the empty string:
the leftmost match at or after the current position is delivered and the search resumes at
its end.  The counter is the number of characters still covered by the last match. -/
def allMatches (re : Regex) (n : Nat) : Nat → List Char → List Match
  | _, [] => []
  | k + 1, _ :: cs => allMatches re n k cs
  | 0, c :: cs =>
    match re.exec n (c :: cs) with
    | some m => m :: allMatches re n (m.text.length - 1) cs
    | none => allMatches re n 0 cs

/-- Go `re.FindAllStringSubmatch(s, -1)`. -/
def FindAllStringSubmatch (re : Regex) (s : List Char) : List Match :=
  allMatches re s.length 0 s

/-- Unanchored search used by `MatchString`: is there a match beginning at some position. -/
def matchFrom (re : Regex) (n : Nat) : List Char → Bool
  | [] => (re.exec n []).isSome
  | c :: cs => (re.exec n (c :: cs)).isSome || matchFrom re n cs

/-- Go `re.MatchString(s)`. -/
def MatchString (re : Regex) (s : List Char) : Bool :=
  matchFrom re s.length s

/-- Concatenation of the literal characters of a string. -/
def lits : List Char → Regex → Regex
  | [], r => r
  | c :: cs, r => .cat (.char (.lit c)) (lits cs r)

/-! ## `main.go`: data -/

/-- The struct `Language`. -/
structure Language where
  Name : List Char
  Extension : List Char
  deriving DecidableEq, Repr

/-- The pattern of `findLanguages`, `"\\* \\[(.+)\\]\\(.+\\)\n"`. -/
def reLanguages : Regex :=
  .cat (.char (.lit '*')) (.cat (.char (.lit ' ')) (.cat (.char (.lit '['))
    (.cat (.cap (.plus .anyNotNL)) (.cat (.char (.lit ']')) (.cat (.char (.lit '('))
      (.cat (.plus .anyNotNL) (.cat (.char (.lit ')')) (.char (.lit '\n')))))))))

/-- The body of the loop of `findLanguages` for one match `m`: `m[1]` is the name, the
extension is `strings.TrimSuffix(filepath.Ext(m[0]), ")\n")`. -/
def languageOfMatch (m : Match) : Language :=
  { Name := m.groups.headD [],
    Extension := TrimSuffix (Ext m.text) [')', '\n'] }

/-- The function `findLanguages` of `main.go` (lines 224 to 238). -/
def findLanguages (s : List Char) : List Language :=
  (FindAllStringSubmatch reLanguages s).map languageOfMatch

/-- A non-nil `*github.RepositoryContent` of a directory listing, as far as the program
reads it: the field `Name`, a `*string`. -/
structure RepositoryContent where
  Name : Option (List Char)
  deriving DecidableEq, Repr

/-- Go `rc.GetName()`: the empty string for a nil receiver and for a nil `Name`. -/
def GetName (rc : Option RepositoryContent) : List Char :=
  match rc with
  | some c => c.Name.getD []
  | none => []

/-- The request fields the handlers read: `r.Method`, the rendering of `r.URL`, `r.URL.Path`
and `r.Header.Get("Authorization")`. -/
structure Request where
  Method : List Char
  URL : List Char
  Path : List Char
  Authorization : List Char
  deriving DecidableEq, Repr

/-- The struct `ErrorResponse` of `main.go`. -/
structure ErrorResponse where
  Request : Option Request
  StatusCode : Nat
  Message : List Char
  deriving DecidableEq, Repr

/-- The method `Error` of `*ErrorResponse`, `"%v %v: %d %v"`, for a response whose
`Request` has been set to `r`. -/
def ErrorResponse.Error (e : ErrorResponse) (r : Hwaas.Request) : List Char :=
  r.Method ++ " ".toList ++ r.URL ++ ": ".toList ++ (Nat.repr e.StatusCode).toList
    ++ " ".toList ++ e.Message

/-! ## `main.go`: helpers -/

/-- The function `isLanguage` of `main.go` (lines 240 to 246). -/
def isLanguage (tbl : Char → Char) (rc : Option RepositoryContent) (l : List Char) : Bool :=
  let name := GetName rc
  let ext := Ext name
  let n := TrimSuffix name ext
  ToLower tbl l == ToLower tbl n

/-- The function `findLanguage` of `main.go` (lines 203 to 222); `http.StatusNotFound` is
404. -/
def findLanguage (tbl : Char → Char) :
    List (Option RepositoryContent) → List Char → Except ErrorResponse Language
  | [], _ => .error { Request := none, StatusCode := 404, Message := "Not Found".toList }
  | rc :: rcs, l =>
    if isLanguage tbl rc l then
      let name := GetName rc
      let ext := Ext name
      let n := TrimSuffix name ext
      .ok { Name := n, Extension := ext }
    else findLanguage tbl rcs l

/-- What the program fixes of a `*github.Client`: the access token of its static token
source, `none` for the client built by `github.NewClient(nil)`. -/
structure Client where
  AccessToken : Option (List Char)
  deriving DecidableEq, Repr

/-- The function `authorize` of `main.go` (lines 189 to 201). -/
def authorize (s : List Char) : Client :=
  if s = [] then { AccessToken := none }
  else
    let t := ReplaceFirst "Bearer".toList [] s
    { AccessToken := some t }

/-! ## `main.go`: the bucket of `getLanguage` -/

/-- A Go string of one byte: an ASCII character, or a lone byte of a multi-byte UTF-8
sequence (not valid UTF-8 on its own). -/
inductive ByteSlice where
  | ascii (c : Char)
  | lone (b : Nat)
  deriving DecidableEq, Repr

/-- The first byte of the UTF-8 encoding of a character. -/
def utf8FirstByte (c : Char) : Nat :=
  let v := c.val.toNat
  if v < 0x80 then v
  else if v < 0x800 then 0xC0 + v / 0x40
  else if v < 0x10000 then 0xE0 + v / 0x1000
  else 0xF0 + v / 0x40000

/-- The slice expression `l[0:1]`: the first byte of `l`.  On the empty string the bounds
check fails and the goroutine panics (`none`). -/
def firstByteSlice : List Char → Option ByteSlice
  | [] => none
  | c :: _ => if c.val < 128 then some (.ascii c) else some (.lone (utf8FirstByte c))

/-- Go `strings.ToLower` on a string of one byte.  A lone byte of a multi-byte sequence is
not ASCII, so the text goes through `strings.Map`, which decodes it as `utf8.RuneError` and
writes U+FFFD. -/
def ByteSlice.ToLower (tbl : Char → Char) : ByteSlice → List Char
  | .ascii c => [unicodeToLower tbl c]
  | .lone _ => [Char.ofNat 0xFFFD]

/-- The pattern `"^[a-z]$"` of `getLanguage`. -/
def reInitial : Regex :=
  .cat .beginText (.cat (.char (.range 'a' 'z')) .endText)

/-- Lines 105 to 109 of `getLanguage`: the value of `initial` for the name `l`; `none` when
the slice expression panics. -/
def initial (tbl : Char → Char) (l : List Char) : Option (List Char) :=
  match firstByteSlice l with
  | none => none
  | some b =>
    let initial := b.ToLower tbl
    if !MatchString reInitial initial then some ['#'] else some initial

/-! ## `reflect` and `encoding/json`: the key of a struct field -/

/-- JSON values, as a tree. -/
inductive Json where
  | null
  | str (s : List Char)
  | arr (items : List Json)
  | obj (fields : List (List Char × Json))

/-- The keys of a JSON object, in order. -/
def Json.keys : Json → List (List Char)
  | .obj fields => fields.map (·.1)
  | _ => []

/-- The member of a JSON object under a key. -/
def Json.get (j : Json) (key : List Char) : Option Json :=
  match j with
  | .obj fields => (fields.find? (fun f => f.1 == key)).map (·.2)
  | _ => none

/-- A struct field: its Go name and its raw tag (the text between the back quotes). -/
structure Field where
  name : List Char
  tag : List Char
  deriving DecidableEq, Repr

/-- Go `reflect.StructTag.Lookup`: skip leading spaces. -/
def skipSpaces : List Char → List Char
  | ' ' :: cs => skipSpaces cs
  | s => s

/-- Go `reflect.StructTag.Lookup`: scan to the colon.  A space, a quote or a control
character ends the name. -/
def scanName : List Char → List Char × List Char
  | [] => ([], [])
  | c :: cs =>
    if c.val > 32 ∧ c ≠ ':' ∧ c ≠ '"' ∧ c.val ≠ 0x7f then
      let r := scanName cs
      (c :: r.1, r.2)
    else ([], c :: cs)

/-- Go `reflect.StructTag.Lookup`: scan the quoted string behind the opening quote; the
result is the raw text between the quotes and the tag behind the closing quote. -/
def scanQuoted : List Char → Option (List Char × List Char)
  | [] => none
  | '"' :: rest => some ([], rest)
  | '\\' :: c :: rest => (scanQuoted rest).map (fun r => ('\\' :: c :: r.1, r.2))
  | c :: rest => if c = '\\' then none else (scanQuoted rest).map (fun r => (c :: r.1, r.2))

/-- Go `strconv.Unquote` of a double-quoted string given the raw text between its quotes.
Escape sequences do not occur in the tags of the program and are not decoded here. -/
def unquote (q : List Char) : Option (List Char) :=
  if '\\' ∈ q ∨ '\n' ∈ q then none else some q

/-- The loop of `reflect.StructTag.Lookup`.  A round that goes on consumes a name, a colon
and a quoted string, so the length of the tag bounds the number of rounds. -/
def lookupLoop (key : List Char) : Nat → List Char → Option (List Char)
  | 0, _ => none
  | fuel + 1, tag =>
    let tag := skipSpaces tag
    if tag = [] then none
    else
      let r := scanName tag
      match r.2 with
      | ':' :: '"' :: rest =>
        if r.1 = [] then none
        else
          match scanQuoted rest with
          | none => none
          | some q => if key = r.1 then unquote q.1 else lookupLoop key fuel q.2
      | _ => none

/-- Go `tag.Lookup(key)`. -/
def Lookup (tag key : List Char) : Option (List Char) :=
  lookupLoop key (tag.length + 1) tag

/-- Go `encoding/json`, `isValidTag`, for names of ASCII letters, digits and the listed
punctuation. -/
def isValidTag (s : List Char) : Bool :=
  !s.isEmpty && s.all (fun c =>
    c ∈ "!#$%&()*+-./:;<=>?@[]^_\x7b|\x7d~ ".toList || c.isAlphanum)

/-- Go `encoding/json`, `typeFields`: the key under which an exported field is written, `none`
for a field that is left out (`json:"-"`). -/
def jsonKey (f : Field) : Option (List Char) :=
  let tag := (Lookup f.tag "json".toList).getD []
  if tag = "-".toList then none
  else
    let name := tag.takeWhile (· ≠ ',')
    let name := if isValidTag name then name else []
    if name = [] then some f.name else some name

/-- Go `encoding/json` on a struct value: the members in field order. -/
def encodeStruct (fields : List (Field × Json)) : Json :=
  .obj (fields.filterMap (fun f => (jsonKey f.1).map (fun k => (k, f.2))))

/-! ## `main.go`: the response types -/

/-- The struct `Code`. -/
structure Code where
  Contents : List Char
  deriving DecidableEq, Repr

/-- The fields of `Code` with their tags as written in `main.go`. -/
def Code.fields : List Field :=
  [⟨"Contents".toList, "\"json:contents\"".toList⟩]

/-- The fields of `Language` with their tags as written in `main.go`. -/
def Language.fields : List Field :=
  [⟨"Name".toList, "\"json:name\"".toList⟩, ⟨"Extension".toList, "\"json:extension\"".toList⟩]

/-- The fields of `LanguageResponse` with their tags as written in `main.go`. -/
def LanguageResponse.fields : List Field :=
  [⟨"Code".toList, "\"json:code\"".toList⟩, ⟨"Language".toList, "\"json:language\"".toList⟩,
   ⟨"RequestedAt".toList, "\"json:requested_at\"".toList⟩]

/-- The fields of `LanguagesResponse` with their tags as written in `main.go`. -/
def LanguagesResponse.fields : List Field :=
  [⟨"Languages".toList, "\"json:languages\"".toList⟩,
   ⟨"RequestedAt".toList, "\"json:requested_at\"".toList⟩]

/-- The exported tagged fields of `ErrorResponse` as written in `main.go`. -/
def ErrorResponse.fields : List Field :=
  [⟨"StatusCode".toList, "json:\"status_code\"".toList⟩,
   ⟨"Message".toList, "json:\"message\"".toList⟩]

/-- JSON of a `*Code`. -/
def Code.toJson (c : Code) : Json :=
  encodeStruct (Code.fields.zip [.str c.Contents])

/-- JSON of a `*Language`. -/
def Language.toJson (l : Language) : Json :=
  encodeStruct (Language.fields.zip [.str l.Name, .str l.Extension])

/-- The struct `LanguageResponse`; `RequestedAt` holds the JSON text of the `time.Time`. -/
structure LanguageResponse where
  Code : Code
  Language : Language
  RequestedAt : List Char
  deriving DecidableEq, Repr

/-- JSON of a `*LanguageResponse`. -/
def LanguageResponse.toJson (r : LanguageResponse) : Json :=
  encodeStruct (LanguageResponse.fields.zip
    [r.Code.toJson, r.Language.toJson, .str r.RequestedAt])

/-- The struct `LanguagesResponse`; a nil slice is written as `null`. -/
structure LanguagesResponse where
  Languages : List Language
  RequestedAt : List Char
  deriving DecidableEq, Repr

/-- JSON of a `*LanguagesResponse`. -/
def LanguagesResponse.toJson (r : LanguagesResponse) : Json :=
  encodeStruct (LanguagesResponse.fields.zip
    [if r.Languages.isEmpty then .null else .arr (r.Languages.map Language.toJson),
     .str r.RequestedAt])

/-! ## `main.go`: the remote collaborator and the handlers -/

/-- An `error` returned by the remote client: a `*github.ErrorResponse` with the status of
its response and its `Error()` text, or any other error value. -/
inductive GoError where
  | github (StatusCode : Nat) (text : List Char)
  | other (text : List Char)
  deriving DecidableEq, Repr

/-- A file or README returned by the remote client: `nil`, or a value with the result of
its method `GetContent`. -/
abbrev Content := Option (Except GoError (List Char))

/-- The results of `client.Repositories.GetContents` that the program reads. -/
structure ContentsResult where
  file : Content
  dir : List (Option RepositoryContent)
  err : Option GoError

/-- The remote collaborator for the configured repository. -/
structure Remote where
  GetReadme : Client → Content × Option GoError
  GetContents : Client → List Char → ContentsResult

/-- The body of a response. -/
inductive Body where
  | json (j : Json)
  | text (s : List Char)

/-- What a request ends in: a response with its status, or a panic of the goroutine. -/
inductive Outcome where
  | panic
  | response (status : Nat) (body : Body)

/-- The status of an outcome. -/
def Outcome.status? : Outcome → Option Nat
  | .panic => none
  | .response st _ => some st

/-- The error branch shared by the handlers: the type assertion
`err.(*github.ErrorResponse)` panics on any other error value. -/
def upstreamError (err : GoError) : Outcome :=
  match err with
  | .github st text => .response st (.json (.str text))
  | .other _ => .panic

/-- Lines 142 to 166 of `getLanguage`: the answer for the language that was found, given
the result `res` of fetching its file. -/
def languageResponse (now : List Char) (language : Language) (res : ContentsResult) :
    Outcome :=
  match res.err with
  | some err => upstreamError err
  | none =>
    match res.file with
    | none => .panic
    | some (.error err) => upstreamError err
    | some (.ok s) =>
      let code : Code := { Contents := s }
      let res : LanguageResponse := { Code := code, Language := language, RequestedAt := now }
      .response 200 (.json res.toJson)

/-- The handler `getLanguage` of `main.go` (lines 99 to 167); `now` is the JSON text of
`time.Now()`. -/
def getLanguage (tbl : Char → Char) (gh : Remote) (now : List Char) (r : Request) : Outcome :=
  let client := authorize r.Authorization
  let l := TrimPrefix r.Path "/api/language/".toList
  match initial tbl l with
  | none => .panic
  | some initial =>
    let res := gh.GetContents client initial
    match res.err with
    | some err => upstreamError err
    | none =>
      match findLanguage tbl res.dir l with
      | .error err => .response err.StatusCode (.json (.str (err.Error r)))
      | .ok language =>
        languageResponse now language
          (gh.GetContents client
            (initial ++ "/".toList ++ language.Name ++ language.Extension))

/-- The handler `getLanguages` of `main.go` (lines 61 to 97). -/
def getLanguages (gh : Remote) (now : List Char) (r : Request) : Outcome :=
  let client := authorize r.Authorization
  let res := gh.GetReadme client
  match res.2 with
  | some err => upstreamError err
  | none =>
    match res.1 with
    | none => .panic
    | some (.error err) => upstreamError err
    | some (.ok s) =>
      let languages := findLanguages s
      let res : LanguagesResponse := { Languages := languages, RequestedAt := now }
      .response 200 (.json res.toJson)

/-- The handler `home` of `main.go` (lines 54 to 59). -/
def home : Outcome :=
  .response 200 (.json (.obj [("Message".toList, .str "Welcome to the Hello World API".toList)]))

/-! ## `gorilla/mux`: the routes of `main` -/

/-- The handlers registered in `main`. -/
inductive Handler where
  | home
  | getLanguages
  | getLanguage
  deriving DecidableEq, Repr

/-- The pattern `mux` compiles the template `/api/language/{language}` to,
`^/api/language/(?P<v0>[^/]+)$`: a variable without pattern is `[^/]+`. -/
def reLanguageRoute : Regex :=
  .cat .beginText (lits "/api/language/".toList (.cat (.cap (.plus (.notLit '/'))) .endText))

/-- The routes of `main`, in the order of registration, each with the pattern of its
template. -/
def routes : List (Regex × Handler) :=
  [(.cat .beginText (lits "/api".toList .endText), .home),
   (.cat .beginText (lits "/api/languages".toList .endText), .getLanguages),
   (reLanguageRoute, .getLanguage)]

/-- The router: the first route whose template matches the path; every route is
registered for `GET` only.  No route gives 404, a route with another method 405. -/
def route (method path : List Char) : Except Nat Handler :=
  match routes.find? (fun rt => MatchString rt.1 path) with
  | some rt => if method = "GET".toList then .ok rt.2 else .error 405
  | none => .error 404

/-- The elements of a path: the texts between its slashes. -/
def pathElements : List Char → List (List Char)
  | [] => [[]]
  | c :: cs =>
    if c = '/' then [] :: pathElements cs
    else
      match pathElements cs with
      | e :: es => (c :: e) :: es
      | [] => [[c]]

/-- One round of the loop of Go `path.Clean` on a rooted path; `out` holds the elements
written so far, the last one first.  An empty element and `.` are passed over, `..` removes
the last element written (none behind the leading slash), any other element is written. -/
def cleanElement (out : List (List Char)) (e : List Char) : List (List Char) :=
  if e = [] ∨ e = ['.'] then out
  else if e = ['.', '.'] then out.tail
  else e :: out

/-- Go `path.Clean("/" + rest)`: the shortest rooted path equivalent by lexical
processing.  (`cleanPath` only calls `path.Clean` on a rooted path.) -/
def cleanRooted (rest : List Char) : List Char :=
  '/' :: List.intercalate ['/'] ((pathElements rest).foldl cleanElement []).reverse

/-- The function `cleanPath` of `gorilla/mux`: the canonical form of a request path.  The
path is made rooted, cleaned by `path.Clean`, and keeps its trailing slash. -/
def cleanPath (p : List Char) : List Char :=
  match p with
  | [] => ['/']
  | c :: cs =>
    let p := if c ≠ '/' then '/' :: c :: cs else c :: cs
    let np := cleanRooted p.tail
    if p.getLast? = some '/' ∧ np ≠ ['/'] then np ++ ['/'] else np

/-- The server of `main`, `(*mux.Router).ServeHTTP` in front of the handlers.  A path that
is not in canonical form is answered with 301 and the canonical path as `Location`, before
any route is tried. -/
def ServeHTTP (tbl : Char → Char) (gh : Remote) (now : List Char) (r : Request) : Outcome :=
  if cleanPath r.Path ≠ r.Path then .response 301 (.text [])
  else
    match route r.Method r.Path with
    | .ok .home => home
    | .ok .getLanguages => getLanguages gh now r
    | .ok .getLanguage => getLanguage tbl gh now r
    | .error 405 => .response 405 (.text [])
    | .error st => .response st (.text "404 page not found\n".toList)

/-! ## Auxiliary notions for the proofs -/

/-- Patterns that never consume a newline: built from classes that exclude it. -/
def Regex.inline : Regex → Bool
  | .char cls => !cls.test '\n'
  | .plus cls => !cls.test '\n'
  | .beginText => false
  | .endText => false
  | .cat a b => a.inline && b.inline
  | .cap a => a.inline

/-- Patterns of the shape `a₁ a₂ … aₖ \n` whose parts before the final newline never
consume a newline: every match ends at the first newline of the input. -/
def Regex.lineEnd : Regex → Bool
  | .char cls => cls == .lit '\n'
  | .cat a b => a.inline && b.lineEnd
  | _ => false

/-- A remainder that still holds the terminating newline of the current line. -/
def KeepsNL (x : List Char) : Prop := ∃ w, x = w ++ ['\n'] ∧ '\n' ∉ w


/-- The filename of a directory entry without its extension, as `isLanguage` and
`findLanguage` compute it. -/
def stem (rc : Option RepositoryContent) : List Char :=
  TrimSuffix (GetName rc) (Ext (GetName rc))

/-- The bucket as the specification words it: the lower-cased first character of the name
when that character is one of `a`..`z`, and `#` otherwise. -/
def bucketSpec (tbl : Char → Char) (l : List Char) : List Char :=
  match l with
  | [] => []
  | c :: _ =>
    let c' := unicodeToLower tbl c
    if 'a'.val ≤ c'.val ∧ c'.val ≤ 'z'.val then [c'] else ['#']

/-- A remote repository with the bucket `g` holding `Go.go`, whose text is `package main`. -/
def exampleRemote : Remote where
  GetReadme := fun _ => (some (.ok "* [Go](g/Go.go)\n".toList), none)
  GetContents := fun _ p =>
    if p = "g".toList then ⟨none, [some ⟨some "Go.go".toList⟩], none⟩
    else if p = "g/Go.go".toList then ⟨some (.ok "package main".toList), [], none⟩
    else ⟨none, [], some (.github 404 "GET: 404 Not Found".toList)⟩

/-- A `GET` request for the path `p` without `Authorization` header. -/
def exampleRequest (p : List Char) : Request :=
  { Method := "GET".toList, URL := p, Path := p, Authorization := [] }

/-! ## Lemmas on the matcher -/

theorem starRests_suffix (cls : CharClass) (s x : List Char) (h : x ∈ starRests cls s) :
    x <:+ s := by
  induction s with
  | nil => simp [starRests] at h; subst h; exact List.suffix_refl _
  | cons c cs ih =>
    unfold starRests at h
    split at h
    · rcases List.mem_append.1 h with h | h
      · exact (ih h).trans (List.suffix_cons c cs)
      · simp at h; subst h; exact List.suffix_refl _
    · simp at h; subst h; exact List.suffix_refl _

theorem plusRests_suffix (cls : CharClass) (s x : List Char) (h : x ∈ plusRests cls s) :
    x <:+ s := by
  cases s with
  | nil => simp [plusRests] at h
  | cons c cs =>
    by_cases hc : cls.test c
    · simp only [plusRests, hc, if_true] at h
      exact (starRests_suffix cls cs x h).trans (List.suffix_cons c cs)
    · simp [plusRests, hc] at h

/-- The remaining input of every result is a suffix of the input. -/
theorem run_suffix (n : Nat) (r : Regex) : ∀ (s : List Char) (caps : List (List Char))
    (t : List Char × List (List Char)), t ∈ r.run n s caps → t.1 <:+ s := by
  induction r with
  | char cls =>
    intro s caps t h
    cases s with
    | nil => simp [Regex.run] at h
    | cons c cs =>
      simp only [Regex.run] at h
      split at h
      · simp at h; subst h; exact List.suffix_cons c cs
      · simp at h
  | plus cls =>
    intro s caps t h
    simp only [Regex.run, List.mem_map] at h
    obtain ⟨x, hx, rfl⟩ := h
    exact plusRests_suffix cls s x hx
  | beginText =>
    intro s caps t h
    simp only [Regex.run] at h
    split at h
    · simp at h; subst h; exact List.suffix_refl _
    · simp at h
  | endText =>
    intro s caps t h
    simp only [Regex.run] at h
    split at h
    · simp at h; subst h; exact List.suffix_refl _
    · simp at h
  | cat a b iha ihb =>
    intro s caps t h
    simp only [Regex.run, List.mem_flatMap] at h
    obtain ⟨t1, h1, h2⟩ := h
    exact (ihb _ _ _ h2).trans (iha _ _ _ h1)
  | cap a iha =>
    intro s caps t h
    simp only [Regex.run, List.mem_map] at h
    obtain ⟨t1, h1, rfl⟩ := h
    exact iha _ _ t1 h1

theorem starRests_line (cls : CharClass) (hc : cls.test '\n' = false) (rest : List Char) :
    ∀ w : List Char, '\n' ∉ w →
      starRests cls (w ++ '\n' :: rest) = (starRests cls (w ++ ['\n'])).map (· ++ rest) ∧
      ∀ x ∈ starRests cls (w ++ ['\n']), KeepsNL x := by
  intro w
  induction w with
  | nil =>
    intro _
    refine ⟨by simp [starRests, hc], ?_⟩
    intro x hx
    simp [starRests, hc] at hx
    exact ⟨[], by simp [hx], by simp⟩
  | cons c cs ih =>
    intro hw
    have hcs : '\n' ∉ cs := fun h => hw (List.mem_cons_of_mem _ h)
    obtain ⟨ih1, ih2⟩ := ih hcs
    have hself : KeepsNL (c :: cs ++ ['\n']) := ⟨c :: cs, rfl, hw⟩
    by_cases ht : cls.test c
    · refine ⟨by simp [starRests, ht, ih1], ?_⟩
      intro x hx
      simp only [List.cons_append, starRests, ht, if_true, List.mem_append,
        List.mem_singleton] at hx
      rcases hx with hx | hx
      · exact ih2 x hx
      · subst hx; exact hself
    · refine ⟨by simp [starRests, ht], ?_⟩
      intro x hx
      simp only [List.cons_append, starRests, ht, List.mem_singleton] at hx
      simp at hx
      subst hx; exact hself

theorem plusRests_line (cls : CharClass) (hc : cls.test '\n' = false) (rest : List Char)
    (w : List Char) (hw : '\n' ∉ w) :
    plusRests cls (w ++ '\n' :: rest) = (plusRests cls (w ++ ['\n'])).map (· ++ rest) ∧
      ∀ x ∈ plusRests cls (w ++ ['\n']), KeepsNL x := by
  cases w with
  | nil => simp [plusRests, hc]
  | cons c cs =>
    have hcs : '\n' ∉ cs := fun h => hw (List.mem_cons_of_mem _ h)
    obtain ⟨h1, h2⟩ := starRests_line cls hc rest cs hcs
    by_cases ht : cls.test c
    · refine ⟨by simp [plusRests, ht, h1], ?_⟩
      intro x hx
      simp only [List.cons_append, plusRests, ht, if_true] at hx
      exact h2 x hx
    · simp [plusRests, ht]

/-- An inline pattern leaves the newline of the current line in the input. -/
theorem run_inline_keeps (n : Nat) (r : Regex) (hr : r.inline = true) :
    ∀ (w : List Char) (caps : List (List Char)), '\n' ∉ w →
      ∀ t ∈ r.run n (w ++ ['\n']) caps, KeepsNL t.1 := by
  induction r with
  | char cls =>
    intro w caps hw t h
    simp only [Regex.inline, Bool.not_eq_true'] at hr
    cases w with
    | nil => simp [Regex.run, hr] at h
    | cons c cs =>
      have hcs : '\n' ∉ cs := fun h => hw (List.mem_cons_of_mem _ h)
      simp only [List.cons_append, Regex.run] at h
      split at h
      · simp at h; subst h; exact ⟨cs, rfl, hcs⟩
      · simp at h
  | plus cls =>
    intro w caps hw t h
    simp only [Regex.inline, Bool.not_eq_true'] at hr
    simp only [Regex.run, List.mem_map] at h
    obtain ⟨x, hx, rfl⟩ := h
    exact (plusRests_line cls hr [] w hw).2 x hx
  | beginText => simp [Regex.inline] at hr
  | endText => simp [Regex.inline] at hr
  | cat a b iha ihb =>
    intro w caps hw t h
    simp only [Regex.inline, Bool.and_eq_true] at hr
    simp only [Regex.run, List.mem_flatMap] at h
    obtain ⟨t1, h1, h2⟩ := h
    obtain ⟨w1, hw1, hn1⟩ := iha hr.1 w caps hw t1 h1
    rw [hw1] at h2
    exact ihb hr.2 w1 t1.2 hn1 t h2
  | cap a iha =>
    intro w caps hw t h
    simp only [Regex.inline] at hr
    simp only [Regex.run, List.mem_map] at h
    obtain ⟨t1, h1, rfl⟩ := h
    exact iha hr w caps hw t1 h1

/-- An inline pattern matches on a line exactly as it does on the line followed by any
further text. -/
theorem run_inline (n n' : Nat) (r : Regex) (hr : r.inline = true) (rest : List Char) :
    ∀ (w : List Char) (caps : List (List Char)), '\n' ∉ w →
      r.run n (w ++ '\n' :: rest) caps =
        (r.run n' (w ++ ['\n']) caps).map (fun t => (t.1 ++ rest, t.2)) := by
  induction r with
  | char cls =>
    intro w caps hw
    simp only [Regex.inline, Bool.not_eq_true'] at hr
    cases w with
    | nil => simp [Regex.run, hr]
    | cons c cs =>
      by_cases ht : cls.test c <;> simp [Regex.run, ht]
  | plus cls =>
    intro w caps hw
    simp only [Regex.inline, Bool.not_eq_true'] at hr
    simp [Regex.run, (plusRests_line cls hr rest w hw).1, Function.comp_def]
  | beginText => simp [Regex.inline] at hr
  | endText => simp [Regex.inline] at hr
  | cat a b iha ihb =>
    intro w caps hw
    simp only [Regex.inline, Bool.and_eq_true] at hr
    simp only [Regex.run]
    rw [iha hr.1 w caps hw, List.flatMap_map, List.map_flatMap]
    apply List.flatMap_congr
    intro t1 h1
    obtain ⟨w1, hw1, hn1⟩ := run_inline_keeps n' a hr.1 w caps hw t1 h1
    simp only [hw1, List.append_assoc, List.singleton_append]
    exact ihb hr.2 w1 t1.2 hn1
  | cap a iha =>
    intro w caps hw
    simp only [Regex.inline] at hr
    simp only [Regex.run]
    rw [iha hr w caps hw, List.map_map, List.map_map]
    apply List.map_congr_left
    intro t1 h1
    obtain ⟨w1, hw1, hn1⟩ := run_inline_keeps n' a hr w caps hw t1 h1
    have hsuf := run_suffix n' a _ _ t1 h1
    have hlen := hsuf.length_le
    simp only [Function.comp, hw1, List.append_assoc, List.singleton_append, Prod.mk.injEq,
      true_and, List.append_cancel_left_eq, List.cons.injEq, and_true]
    rw [hw1] at hlen
    simp only [List.length_append, List.length_cons, List.length_nil] at hlen ⊢
    have e1 : w.length + (rest.length + 1) - (w1.length + (rest.length + 1))
        = w.length - w1.length := by omega
    have e2 : w.length + (0 + 1) - (w1.length + (0 + 1)) = w.length - w1.length := by omega
    rw [e1, e2, List.take_append_of_le_length (by omega),
      List.take_append_of_le_length (by omega)]

/-- A line-end pattern consumes the input up to and including the newline that ends the
current line. -/
theorem run_lineEnd_nil (n : Nat) (r : Regex) (hr : r.lineEnd = true) :
    ∀ (w : List Char) (caps : List (List Char)), '\n' ∉ w →
      ∀ t ∈ r.run n (w ++ ['\n']) caps, t.1 = [] := by
  induction r with
  | char cls =>
    intro w caps hw t h
    simp only [Regex.lineEnd, beq_iff_eq] at hr
    subst hr
    cases w with
    | nil => simp [Regex.run, CharClass.test] at h; simp [h]
    | cons c cs =>
      have hc : c ≠ '\n' := fun e => hw (by simp [e])
      simp [Regex.run, CharClass.test, hc] at h
  | plus cls => simp [Regex.lineEnd] at hr
  | beginText => simp [Regex.lineEnd] at hr
  | endText => simp [Regex.lineEnd] at hr
  | cat a b _ ihb =>
    intro w caps hw t h
    simp only [Regex.lineEnd, Bool.and_eq_true] at hr
    simp only [Regex.run, List.mem_flatMap] at h
    obtain ⟨t1, h1, h2⟩ := h
    obtain ⟨w1, hw1, hn1⟩ := run_inline_keeps n a hr.1 w caps hw t1 h1
    rw [hw1] at h2
    exact ihb hr.2 w1 t1.2 hn1 t h2
  | cap a _ => simp [Regex.lineEnd] at hr

/-- A line-end pattern matches on a line exactly as it does on the line followed by any
further text: no match reaches past the newline. -/
theorem run_lineEnd (n n' : Nat) (r : Regex) (hr : r.lineEnd = true) (rest : List Char) :
    ∀ (w : List Char) (caps : List (List Char)), '\n' ∉ w →
      r.run n (w ++ '\n' :: rest) caps =
        (r.run n' (w ++ ['\n']) caps).map (fun t => (t.1 ++ rest, t.2)) := by
  induction r with
  | char cls =>
    intro w caps hw
    simp only [Regex.lineEnd, beq_iff_eq] at hr
    subst hr
    cases w with
    | nil => simp [Regex.run, CharClass.test]
    | cons c cs =>
      have hc : c ≠ '\n' := fun e => hw (by simp [e])
      simp [Regex.run, CharClass.test, hc]
  | plus cls => simp [Regex.lineEnd] at hr
  | beginText => simp [Regex.lineEnd] at hr
  | endText => simp [Regex.lineEnd] at hr
  | cat a b _ ihb =>
    intro w caps hw
    simp only [Regex.lineEnd, Bool.and_eq_true] at hr
    simp only [Regex.run]
    rw [run_inline n n' a hr.1 rest w caps hw, List.flatMap_map, List.map_flatMap]
    apply List.flatMap_congr
    intro t1 h1
    obtain ⟨w1, hw1, hn1⟩ := run_inline_keeps n' a hr.1 w caps hw t1 h1
    simp only [hw1, List.append_assoc, List.singleton_append]
    exact ihb hr.2 w1 t1.2 hn1
  | cap a _ => simp [Regex.lineEnd] at hr

/-- A line-end pattern has no match in a text without newline. -/
theorem run_lineEnd_noNL (n : Nat) (r : Regex) (hr : r.lineEnd = true) :
    ∀ (u : List Char) (caps : List (List Char)), '\n' ∉ u → r.run n u caps = [] := by
  induction r with
  | char cls =>
    intro u caps hu
    simp only [Regex.lineEnd, beq_iff_eq] at hr
    subst hr
    cases u with
    | nil => simp [Regex.run]
    | cons c cs =>
      have hc : c ≠ '\n' := fun e => hu (by simp [e])
      simp [Regex.run, CharClass.test, hc]
  | plus cls => simp [Regex.lineEnd] at hr
  | beginText => simp [Regex.lineEnd] at hr
  | endText => simp [Regex.lineEnd] at hr
  | cat a b _ ihb =>
    intro u caps hu
    simp only [Regex.lineEnd, Bool.and_eq_true] at hr
    simp only [Regex.run, List.flatMap_eq_nil_iff]
    intro t1 h1
    have hsuf := run_suffix n a u caps t1 h1
    exact ihb hr.2 t1.1 t1.2 (fun h => hu (hsuf.subset h))
  | cap a _ => simp [Regex.lineEnd] at hr

/-- On a line, a line-end pattern finds either nothing or a match that is the whole line
with its newline; with further text behind the line it finds the same. -/
theorem exec_lineEnd (n n' : Nat) (r : Regex) (hr : r.lineEnd = true) (rest w : List Char)
    (hw : '\n' ∉ w) :
    (r.exec n (w ++ '\n' :: rest) = none ∧ r.exec n' (w ++ ['\n']) = none) ∨
    ∃ g, r.exec n (w ++ '\n' :: rest) = some ⟨w ++ ['\n'], g⟩ ∧
      r.exec n' (w ++ ['\n']) = some ⟨w ++ ['\n'], g⟩ := by
  unfold Regex.exec
  rw [run_lineEnd n n' r hr rest w [] hw]
  cases h : r.run n' (w ++ ['\n']) [] with
  | nil => left; simp
  | cons t ts =>
    right
    have ht := run_lineEnd_nil n' r hr w [] hw t (by simp [h])
    refine ⟨t.2, ?_, ?_⟩
    · simp only [List.map_cons, List.head?_cons, ht, List.nil_append, Match.mk.injEq, and_true]
      have : (w ++ '\n' :: rest).length - rest.length = (w ++ ['\n']).length := by
        simp only [List.length_append, List.length_cons, List.length_nil]; omega
      rw [this]
      have : w ++ '\n' :: rest = (w ++ ['\n']) ++ rest := by simp
      rw [this, List.take_left]
    · simp [ht]

theorem exec_lineEnd_noNL (n : Nat) (r : Regex) (hr : r.lineEnd = true) (u : List Char)
    (hu : '\n' ∉ u) : r.exec n u = none := by
  simp [Regex.exec, run_lineEnd_noNL n r hr u [] hu]

/-! ## Lemmas on the search loop -/

@[simp] theorem allMatches_nil (re : Regex) (n k : Nat) : allMatches re n k [] = [] := by
  cases k <;> rfl

/-- The characters covered by the last match are passed over. -/
theorem allMatches_skip (re : Regex) (n : Nat) (a b : List Char) :
    allMatches re n a.length (a ++ b) = allMatches re n 0 b := by
  induction a with
  | nil => rfl
  | cons c cs ih => simpa [allMatches] using ih

/-- The search over a line followed by further text: the matches of the line, then the
matches of the further text.  A line holds at most one match. -/
theorem allMatches_line (re : Regex) (hr : re.lineEnd = true) (n n' : Nat)
    (rest : List Char) : ∀ w : List Char, '\n' ∉ w →
      allMatches re n 0 (w ++ '\n' :: rest) =
        allMatches re n' 0 (w ++ ['\n']) ++ allMatches re n 0 rest ∧
      (allMatches re n' 0 (w ++ ['\n'])).length ≤ 1 := by
  intro w
  induction w with
  | nil =>
    intro hw
    rcases exec_lineEnd n n' re hr rest [] hw with ⟨h1, h2⟩ | ⟨g, h1, h2⟩
    · simp only [List.nil_append] at h1 h2
      simp [allMatches, h1, h2]
    · simp only [List.nil_append] at h1 h2
      simp [allMatches, h1, h2]
  | cons c cs ih =>
    intro hw
    have hcs : '\n' ∉ cs := fun h => hw (List.mem_cons_of_mem _ h)
    rcases exec_lineEnd n n' re hr rest (c :: cs) hw with ⟨h1, h2⟩ | ⟨g, h1, h2⟩
    · simp only [List.cons_append] at h1 h2
      simpa [allMatches, h1, h2] using ih hcs
    · simp only [List.cons_append] at h1 h2
      have e1 : allMatches re n (cs.length + 1) (cs ++ '\n' :: rest)
          = allMatches re n 0 rest := by
        have := allMatches_skip re n (cs ++ ['\n']) rest
        simpa using this
      have e2 : allMatches re n' (cs.length + 1) (cs ++ ['\n']) = [] := by
        have := allMatches_skip re n' (cs ++ ['\n']) []
        simpa using this
      simp [allMatches, h1, h2, e1, e2]

/-- A text without newline holds no match of a line-end pattern. -/
theorem allMatches_noNL (re : Regex) (hr : re.lineEnd = true) (n : Nat) :
    ∀ u : List Char, '\n' ∉ u → allMatches re n 0 u = [] := by
  intro u
  induction u with
  | nil => intro _; rfl
  | cons c cs ih =>
    intro hu
    have hcs : '\n' ∉ cs := fun h => hu (List.mem_cons_of_mem _ h)
    simp [allMatches, exec_lineEnd_noNL n re hr (c :: cs) hu, ih hcs]

/-- Text without newline appended behind any text adds no match and changes none. -/
theorem allMatches_append_noNL (re : Regex) (hr : re.lineEnd = true) (n n' : Nat)
    (u : List Char) (hu : '\n' ∉ u) : ∀ s w : List Char, '\n' ∉ w →
      allMatches re n 0 (w ++ s ++ u) = allMatches re n' 0 (w ++ s) := by
  intro s
  induction s with
  | nil =>
    intro w hw
    rw [allMatches_noNL re hr n' _ (by simpa using hw),
      allMatches_noNL re hr n _ (by simp [hw, hu])]
  | cons c cs ih =>
    intro w hw
    by_cases hc : c = '\n'
    · subst hc
      have h1 := (allMatches_line re hr n n (cs ++ u) w hw).1
      have h2 := (allMatches_line re hr n' n (cs) w hw).1
      have h3 := ih [] (by simp)
      simp only [List.nil_append] at h3
      simp only [List.append_assoc, List.cons_append]
      rw [h1, h2, h3]
    · have := ih (w ++ [c]) (by simp [hw, Ne.symm hc])
      simpa using this

theorem reLanguages_lineEnd : reLanguages.lineEnd = true := by decide


/-! ## `findLanguages`: lines -/

theorem findLanguages_cons_line (w rest : List Char) (hw : '\n' ∉ w) :
    findLanguages (w ++ '\n' :: rest) = findLanguages (w ++ ['\n']) ++ findLanguages rest ∧
      (findLanguages (w ++ ['\n'])).length ≤ 1 := by
  unfold findLanguages FindAllStringSubmatch
  obtain ⟨h1, h2⟩ := allMatches_line reLanguages reLanguages_lineEnd
    (w ++ '\n' :: rest).length (w ++ ['\n']).length rest w hw
  have h3 := allMatches_append_noNL reLanguages reLanguages_lineEnd
    (w ++ '\n' :: rest).length rest.length [] (by simp) rest [] (by simp)
  simp only [List.nil_append, List.append_nil] at h3
  rw [h1, List.map_append, h3]
  exact ⟨rfl, by simpa using h2⟩

/-- C6: for lines `L1..Lk` without newline, `findLanguages` of the text
`L1 ++ "\n" ++ ... ++ Lk ++ "\n"` is the concatenation, in line order, of the results of
`findLanguages (Li ++ "\n")`, and each line yields at most one entry. -/
theorem findLanguages_lines (Ls : List (List Char)) (h : ∀ L ∈ Ls, '\n' ∉ L) :
    findLanguages (Ls.flatMap (fun L => L ++ ['\n'])) =
        Ls.flatMap (fun L => findLanguages (L ++ ['\n'])) ∧
      ∀ L ∈ Ls, (findLanguages (L ++ ['\n'])).length ≤ 1 := by
  induction Ls with
  | nil => exact ⟨rfl, by simp⟩
  | cons L Ls ih =>
    have hL : '\n' ∉ L := h L (by simp)
    obtain ⟨ih1, ih2⟩ := ih (fun M hM => h M (by simp [hM]))
    obtain ⟨h1, h2⟩ := findLanguages_cons_line L (Ls.flatMap (fun L => L ++ ['\n'])) hL
    constructor
    · simp only [List.flatMap_cons, List.append_assoc, List.singleton_append]
      rw [h1, ih1]
    · intro M hM
      rcases List.mem_cons.1 hM with e | hM
      · subst e; exact h2
      · exact ih2 M hM

theorem findLanguages_lines_witness :
    (∀ L ∈ ["* [Go](go.go)".toList, "text".toList, "* [Go](go.go)".toList], '\n' ∉ L) ∧
    findLanguages "* [Go](go.go)\ntext\n* [Go](go.go)\n".toList =
      [⟨"Go".toList, ".go".toList⟩, ⟨"Go".toList, ".go".toList⟩] := by
  have h : ∀ L ∈ ["* [Go](go.go)".toList, "text".toList, "* [Go](go.go)".toList], '\n' ∉ L := by
    decide
  refine ⟨h, ?_⟩
  have := (findLanguages_lines _ h).1
  exact this.trans (by decide)

/-- C10: for a text `s` that is empty or ends with a newline and a text `u` without newline,
`findLanguages (s ++ u) = findLanguages s`: a final line without its newline yields no
entry; in particular `findLanguages` of a text without newline is empty. -/
theorem findLanguages_unterminated (s u : List Char)
    (hs : s = [] ∨ ∃ s0, s = s0 ++ ['\n']) (hu : '\n' ∉ u) :
    findLanguages (s ++ u) = findLanguages s ∧ findLanguages u = [] := by
  have h2 : findLanguages u = [] := by
    unfold findLanguages FindAllStringSubmatch
    rw [allMatches_noNL reLanguages reLanguages_lineEnd u.length u hu]
    rfl
  refine ⟨?_, h2⟩
  rcases hs with rfl | ⟨s0, rfl⟩
  · simpa using h2
  · unfold findLanguages FindAllStringSubmatch
    have h1 := allMatches_append_noNL reLanguages reLanguages_lineEnd
      (s0 ++ ['\n'] ++ u).length (s0 ++ ['\n']).length u hu (s0 ++ ['\n']) [] (by simp)
    simp only [List.nil_append] at h1
    rw [h1]

theorem findLanguages_unterminated_witness :
    (∃ s0, "* [C](c.c)\n".toList = s0 ++ ['\n']) ∧ '\n' ∉ "* [Go](go.go)".toList ∧
    findLanguages ("* [C](c.c)\n".toList ++ "* [Go](go.go)".toList)
        = findLanguages "* [C](c.c)\n".toList ∧
      findLanguages "* [Go](go.go)".toList = [] :=
  ⟨⟨"* [C](c.c)".toList, by decide⟩, by decide,
    findLanguages_unterminated "* [C](c.c)\n".toList "* [Go](go.go)".toList
      (Or.inr ⟨"* [C](c.c)".toList, by decide⟩) (by decide)⟩

/-! ## `filepath.Ext` and the stem of a filename -/

theorem extLoop_suffix : ∀ (rs acc : List Char), ∃ p, rs.reverse ++ acc = p ++ extLoop rs acc := by
  intro rs
  induction rs with
  | nil => intro acc; exact ⟨acc, by simp [extLoop]⟩
  | cons c cs ih =>
    intro acc
    unfold extLoop
    split
    · exact ⟨(c :: cs).reverse ++ acc, by simp⟩
    · split
      · rename_i hdot
        exact ⟨cs.reverse, by simp [hdot]⟩
      · obtain ⟨p, hp⟩ := ih (c :: acc)
        exact ⟨p, by simpa using hp⟩

/-- The extension is a suffix of the path. -/
theorem Ext_suffix (path : List Char) : Ext path <:+ path := by
  obtain ⟨p, hp⟩ := extLoop_suffix path.reverse []
  exact ⟨p, by simpa [Ext] using hp.symm⟩

/-- Cutting a suffix and putting it back gives the string. -/
theorem TrimSuffix_append (s suffix : List Char) (h : suffix <:+ s) :
    TrimSuffix s suffix ++ suffix = s := by
  obtain ⟨p, rfl⟩ := h
  have : suffix.isSuffixOf (p ++ suffix) = true := by
    rw [List.isSuffixOf_iff_suffix]; exact List.suffix_append _ _
  simp [TrimSuffix, this]

/-- The stem of an entry followed by its extension is its filename. -/
theorem stem_append_Ext (rc : Option RepositoryContent) :
    stem rc ++ Ext (GetName rc) = GetName rc :=
  TrimSuffix_append _ _ (Ext_suffix _)

theorem isLanguage_iff (tbl : Char → Char) (rc : Option RepositoryContent) (l : List Char) :
    isLanguage tbl rc l = true ↔ ToLower tbl (stem rc) = ToLower tbl l := by
  simp only [isLanguage, stem, beq_iff_eq]
  exact eq_comm

/-- The loop of `findLanguage`: the listing up to the first matching entry. -/
theorem findLanguage_ok_iff (tbl : Char → Char) (rcs : List (Option RepositoryContent))
    (l : List Char) (lang : Language) :
    findLanguage tbl rcs l = .ok lang ↔
      ∃ pre rc post, rcs = pre ++ rc :: post ∧
        (∀ x ∈ pre, ToLower tbl (stem x) ≠ ToLower tbl l) ∧
        ToLower tbl (stem rc) = ToLower tbl l ∧
        lang = { Name := stem rc, Extension := Ext (GetName rc) } := by
  induction rcs with
  | nil => simp [findLanguage]
  | cons rc rcs ih =>
    by_cases hm : isLanguage tbl rc l = true
    · have hm' := (isLanguage_iff tbl rc l).1 hm
      simp only [findLanguage, hm, if_true]
      constructor
      · intro h
        refine ⟨[], rc, rcs, rfl, by simp, hm', ?_⟩
        simpa [stem, eq_comm] using h
      · rintro ⟨pre, rc', post, hsplit, hpre, _, hlang⟩
        cases pre with
        | nil =>
          simp only [List.nil_append, List.cons.injEq] at hsplit
          obtain ⟨rfl, rfl⟩ := hsplit
          simp [hlang, stem]
        | cons x pre =>
          simp only [List.cons_append, List.cons.injEq] at hsplit
          obtain ⟨rfl, rfl⟩ := hsplit
          exact absurd hm' (hpre rc (by simp))
    · have hm' : ToLower tbl (stem rc) ≠ ToLower tbl l := fun h =>
        hm ((isLanguage_iff tbl rc l).2 h)
      simp only [findLanguage, hm, if_false, Bool.false_eq_true]
      rw [ih]
      constructor
      · rintro ⟨pre, rc', post, rfl, hpre, hrc, hlang⟩
        refine ⟨rc :: pre, rc', post, rfl, ?_, hrc, hlang⟩
        intro x hx
        rcases List.mem_cons.1 hx with rfl | hx
        · exact hm'
        · exact hpre x hx
      · rintro ⟨pre, rc', post, hsplit, hpre, hrc, hlang⟩
        cases pre with
        | nil =>
          simp only [List.nil_append, List.cons.injEq] at hsplit
          obtain ⟨rfl, rfl⟩ := hsplit
          exact absurd hrc hm'
        | cons x pre =>
          simp only [List.cons_append, List.cons.injEq] at hsplit
          obtain ⟨rfl, rfl⟩ := hsplit
          exact ⟨pre, rc', post, rfl, fun y hy => hpre y (by simp [hy]), hrc, hlang⟩

/-- The loop of `findLanguage` fails exactly when no entry matches, with the fixed error. -/
theorem findLanguage_error_iff (tbl : Char → Char) (rcs : List (Option RepositoryContent))
    (l : List Char) (e : ErrorResponse) :
    findLanguage tbl rcs l = .error e ↔
      (∀ rc ∈ rcs, ToLower tbl (stem rc) ≠ ToLower tbl l) ∧
        e = { Request := none, StatusCode := 404, Message := "Not Found".toList } := by
  induction rcs with
  | nil => simp [findLanguage, eq_comm]
  | cons rc rcs ih =>
    by_cases hm : isLanguage tbl rc l = true
    · have hm' := (isLanguage_iff tbl rc l).1 hm
      simp only [findLanguage, hm, if_true]
      constructor
      · intro h; cases h
      · rintro ⟨h, _⟩; exact absurd hm' (h rc (by simp))
    · have hm' : ToLower tbl (stem rc) ≠ ToLower tbl l := fun h =>
        hm ((isLanguage_iff tbl rc l).2 h)
      simp only [findLanguage, hm, if_false, Bool.false_eq_true]
      rw [ih]
      simp [hm']

/-- The result of `findLanguage` only depends on the lower-cased target. -/
theorem findLanguage_congr (tbl : Char → Char) (rcs : List (Option RepositoryContent))
    (l l' : List Char) (h : ToLower tbl l' = ToLower tbl l) :
    findLanguage tbl rcs l' = findLanguage tbl rcs l := by
  induction rcs with
  | nil => rfl
  | cons rc rcs ih => simp [findLanguage, isLanguage, h, ih]

/-! ## `findLanguage` -/

/-- C2: if some entry of the listing has a stem equal to the target `l` after lower-casing,
`findLanguage` returns, without error, the language of the first such entry in listing
order: `Name` is the filename without its extension in the casing of the listing,
`Extension` is the extension of the filename; every target that lower-cases to the same
text gets the identical result. -/
theorem findLanguage_first_match (tbl : Char → Char) (rcs : List (Option RepositoryContent))
    (l : List Char) (h : ∃ rc ∈ rcs, ToLower tbl (stem rc) = ToLower tbl l) :
    ∃ pre rc post, rcs = pre ++ rc :: post ∧
      (∀ x ∈ pre, ToLower tbl (stem x) ≠ ToLower tbl l) ∧
      ToLower tbl (stem rc) = ToLower tbl l ∧
      stem rc ++ Ext (GetName rc) = GetName rc ∧
      ∀ l', ToLower tbl l' = ToLower tbl l →
        findLanguage tbl rcs l' = .ok { Name := stem rc, Extension := Ext (GetName rc) } := by
  cases hf : findLanguage tbl rcs l with
  | error e =>
    obtain ⟨rc, hrc, hm⟩ := h
    exact absurd hm (((findLanguage_error_iff tbl rcs l e).1 hf).1 rc hrc)
  | ok lang =>
    obtain ⟨pre, rc, post, hsplit, hpre, hrc, hlang⟩ := (findLanguage_ok_iff tbl rcs l lang).1 hf
    refine ⟨pre, rc, post, hsplit, hpre, hrc, stem_append_Ext rc, ?_⟩
    intro l' hl'
    rw [findLanguage_congr tbl rcs l l' hl', hf, hlang]

theorem findLanguage_first_match_witness :
    (∃ rc ∈ [some ⟨some "Groovy.groovy".toList⟩, some ⟨some "Go.go".toList⟩,
        some ⟨some "go.txt".toList⟩], ToLower id (stem rc) = ToLower id "GO".toList) ∧
    findLanguage id [some ⟨some "Groovy.groovy".toList⟩, some ⟨some "Go.go".toList⟩,
        some ⟨some "go.txt".toList⟩] "go".toList = .ok ⟨"Go".toList, ".go".toList⟩ ∧
    findLanguage id [some ⟨some "Groovy.groovy".toList⟩, some ⟨some "Go.go".toList⟩,
        some ⟨some "go.txt".toList⟩] "Go".toList = .ok ⟨"Go".toList, ".go".toList⟩ ∧
    findLanguage id [some ⟨some "Groovy.groovy".toList⟩, some ⟨some "Go.go".toList⟩,
        some ⟨some "go.txt".toList⟩] "GO".toList = .ok ⟨"Go".toList, ".go".toList⟩ := by
  have h : ∃ rc ∈ [some ⟨some "Groovy.groovy".toList⟩, some ⟨some "Go.go".toList⟩,
      some ⟨some "go.txt".toList⟩], ToLower id (stem rc) = ToLower id "GO".toList :=
    ⟨some ⟨some "Go.go".toList⟩, by decide, by decide⟩
  obtain ⟨pre, rc, post, -, -, -, -, hall⟩ := findLanguage_first_match id _ "GO".toList h
  have h0 : findLanguage id [some ⟨some "Groovy.groovy".toList⟩, some ⟨some "Go.go".toList⟩,
      some ⟨some "go.txt".toList⟩] "GO".toList = .ok ⟨"Go".toList, ".go".toList⟩ := rfl
  have h1 := hall "go".toList (by decide)
  have h2 := hall "Go".toList (by decide)
  have h3 := hall "GO".toList rfl
  exact ⟨h, h1.trans (h3.symm.trans h0), h2.trans (h3.symm.trans h0), h0⟩

/-- C3: `findLanguage` fails exactly when no entry has a stem equal to the target after
lower-casing (so always on the empty listing); the failure carries status 404 and message
"Not Found", and `getLanguage` then answers with status 404. -/
theorem findLanguage_not_found (tbl : Char → Char) (rcs : List (Option RepositoryContent))
    (l : List Char) :
    ((∃ e, findLanguage tbl rcs l = .error e) ↔
        ∀ rc ∈ rcs, ToLower tbl (stem rc) ≠ ToLower tbl l) ∧
      (∀ e, findLanguage tbl rcs l = .error e →
        e.StatusCode = 404 ∧ e.Message = "Not Found".toList) ∧
      (∃ e, findLanguage tbl [] l = .error e) ∧
      ∀ (gh : Remote) (now : List Char) (r : Request) (b : List Char),
        TrimPrefix r.Path "/api/language/".toList = l → initial tbl l = some b →
        (gh.GetContents (authorize r.Authorization) b).err = none →
        (gh.GetContents (authorize r.Authorization) b).dir = rcs →
        (∀ rc ∈ rcs, ToLower tbl (stem rc) ≠ ToLower tbl l) →
        (getLanguage tbl gh now r).status? = some 404 := by
  refine ⟨?_, ?_, ⟨_, rfl⟩, ?_⟩
  · constructor
    · rintro ⟨e, he⟩
      exact ((findLanguage_error_iff tbl rcs l e).1 he).1
    · intro h
      exact ⟨_, (findLanguage_error_iff tbl rcs l _).2 ⟨h, rfl⟩⟩
  · intro e he
    have := ((findLanguage_error_iff tbl rcs l e).1 he).2
    subst this
    exact ⟨rfl, rfl⟩
  · intro gh now r b hl hb herr hdir hno
    have hf := (findLanguage_error_iff tbl rcs l _).2 ⟨hno, rfl⟩
    simp only [getLanguage, hl, hb, herr, hdir, hf, Outcome.status?]

theorem findLanguage_not_found_witness :
    (∃ e, findLanguage id [some ⟨some "Go.go".toList⟩] "gox".toList = .error e) ∧
      (getLanguage id exampleRemote "now".toList
        (exampleRequest "/api/language/gox".toList)).status? = some 404 := by
  have h := findLanguage_not_found id [some ⟨some "Go.go".toList⟩] "gox".toList
  have hno : ∀ rc ∈ [some (⟨some "Go.go".toList⟩ : RepositoryContent)],
      ToLower id (stem rc) ≠ ToLower id "gox".toList := by decide
  exact ⟨h.1.2 hno, h.2.2.2 exampleRemote "now".toList
    (exampleRequest "/api/language/gox".toList) ['g'] rfl rfl rfl rfl hno⟩

/-- C9: when `findLanguage` succeeds, the returned `Name` followed by the returned
`Extension` is the filename of the matched entry, the first matching one of the listing,
and the path `getLanguage` fetches is the bucket, a slash and that filename. -/
theorem findLanguage_names_entry (tbl : Char → Char) (rcs : List (Option RepositoryContent))
    (l : List Char) (lang : Language) (h : findLanguage tbl rcs l = .ok lang) :
    ∃ pre rc post, rcs = pre ++ rc :: post ∧
      (∀ x ∈ pre, isLanguage tbl x l = false) ∧ isLanguage tbl rc l = true ∧
      lang.Name ++ lang.Extension = GetName rc ∧
      ∀ (gh : Remote) (now : List Char) (r : Request) (b : List Char),
        TrimPrefix r.Path "/api/language/".toList = l → initial tbl l = some b →
        (gh.GetContents (authorize r.Authorization) b).err = none →
        (gh.GetContents (authorize r.Authorization) b).dir = rcs →
        getLanguage tbl gh now r =
          languageResponse now lang
            (gh.GetContents (authorize r.Authorization) (b ++ "/".toList ++ GetName rc)) := by
  obtain ⟨pre, rc, post, hsplit, hpre, hrc, hlang⟩ := (findLanguage_ok_iff tbl rcs l lang).1 h
  have hname : lang.Name ++ lang.Extension = GetName rc := by
    rw [hlang]; exact stem_append_Ext rc
  refine ⟨pre, rc, post, hsplit, ?_, (isLanguage_iff tbl rc l).2 hrc, hname, ?_⟩
  · intro x hx
    cases hx' : isLanguage tbl x l with
    | false => rfl
    | true => exact absurd ((isLanguage_iff tbl x l).1 hx') (hpre x hx)
  · intro gh now r b hl hb herr hdir
    simp only [getLanguage, hl, hb, herr, hdir, h, List.append_assoc, hname]

theorem findLanguage_names_entry_witness :
    findLanguage id [some ⟨some "Groovy.groovy".toList⟩, some ⟨some "Go.go".toList⟩] "go".toList
        = .ok ⟨"Go".toList, ".go".toList⟩ ∧
    ∃ pre rc post,
      [some ⟨some "Groovy.groovy".toList⟩, some ⟨some "Go.go".toList⟩] = pre ++ rc :: post ∧
      "Go".toList ++ ".go".toList = GetName rc := by
  have h : findLanguage id [some ⟨some "Groovy.groovy".toList⟩, some ⟨some "Go.go".toList⟩]
      "go".toList = .ok ⟨"Go".toList, ".go".toList⟩ := rfl
  refine ⟨h, ?_⟩
  obtain ⟨pre, rc, post, h1, -, -, h2, -⟩ := findLanguage_names_entry id _ _ _ h
  exact ⟨pre, rc, post, h1, h2⟩

/-! ## The bucket of `getLanguage` -/

theorem MatchString_reInitial (x : Char) :
    MatchString reInitial [x] = (decide ('a'.val ≤ x.val) && decide (x.val ≤ 'z'.val)) := by
  by_cases h : ((97 : UInt32) ≤ x.val ∧ x.val ≤ 122)
  · simp [MatchString, matchFrom, Regex.exec, reInitial, Regex.run, CharClass.test, h]
  · simp [MatchString, matchFrom, Regex.exec, reInitial, Regex.run, CharClass.test, h]
    simpa using h

/-- The value of `initial` for a non-empty name, read off its first character. -/
theorem initial_cons (tbl : Char → Char) (c : Char) (cs : List Char) :
    initial tbl (c :: cs) =
      some (if c.val < 128 ∧ 'a'.val ≤ c.toLower.val ∧ c.toLower.val ≤ 'z'.val
        then [c.toLower] else ['#']) := by
  by_cases h : c.val < 128
  · simp only [initial, firstByteSlice, h, if_true, ByteSlice.ToLower, unicodeToLower,
      MatchString_reInitial, true_and]
    by_cases h2 : 'a'.val ≤ c.toLower.val ∧ c.toLower.val ≤ 'z'.val
    · rw [if_pos h2, if_neg]
      simp only [Bool.not_eq_true', Bool.and_eq_false_iff, decide_eq_false_iff_not,
        not_or, not_not]
      exact h2
    · rw [if_neg h2, if_pos]
      simp only [Bool.not_eq_true', Bool.and_eq_false_iff, decide_eq_false_iff_not]
      exact not_and_or.1 h2
  · have hm : MatchString reInitial [Char.ofNat 0xFFFD] = false := by decide
    simp [initial, firstByteSlice, h, ByteSlice.ToLower, hm]

/-- C4, as the code has it: the bucket of a non-empty name is one character, decided by
the first byte of the name: the lower-cased first character when that character is ASCII
and its lower case is one of `a`..`z`, and `#` otherwise, in particular for every name
whose first character is not ASCII. -/
theorem initial_bucket (tbl : Char → Char) (c : Char) (cs : List Char) :
    initial tbl (c :: cs) =
        some (if c.val < 128 ∧ 'a'.val ≤ c.toLower.val ∧ c.toLower.val ≤ 'z'.val
          then [c.toLower] else ['#']) ∧
      (¬ c.val < 128 → initial tbl (c :: cs) = some ['#']) ∧
      initial tbl "go".toList = some ['g'] ∧ initial tbl "C++".toList = some ['c'] ∧
      initial tbl "#!/bin".toList = some ['#'] ∧ initial tbl "3D".toList = some ['#'] := by
  refine ⟨initial_cons tbl c cs, ?_, (initial_cons tbl 'g' _).trans (by decide),
    (initial_cons tbl 'C' _).trans (by decide), (initial_cons tbl '#' _).trans (by decide),
    (initial_cons tbl '3' _).trans (by decide)⟩
  intro h
  rw [initial_cons, if_neg (fun h' => h h'.1)]

/-- C4, counterexample: U+212A KELVIN SIGN lower-cases to `k`, one of `a`..`z`, so the
wording gives the bucket `k`; the code lower-cases the first byte of the name only and
gives `#`. -/
theorem initial_bucket_kelvin :
    initial id [Char.ofNat 0x212A] = some ['#'] ∧
      bucketSpec id [Char.ofNat 0x212A] = ['k'] := by
  decide

/-! ## The route of `getLanguage` -/

theorem run_lits_ne_nil (n : Nat) (r : Regex) : ∀ (cs s : List Char) (caps : List (List Char)),
    (lits cs r).run n s caps ≠ [] → ∃ s', s = cs ++ s' ∧ r.run n s' caps ≠ [] := by
  intro cs
  induction cs with
  | nil => intro s caps h; exact ⟨s, rfl, h⟩
  | cons c cs ih =>
    intro s caps h
    cases s with
    | nil => simp [lits, Regex.run] at h
    | cons x xs =>
      by_cases hx : x = c
      · subst hx
        simp only [lits, Regex.run, CharClass.test, beq_self_eq_true, if_true,
          List.flatMap_cons, List.flatMap_nil, List.append_nil] at h
        obtain ⟨s', rfl, h'⟩ := ih xs caps h
        exact ⟨s', rfl, h'⟩
      · simp [lits, Regex.run, CharClass.test, hx] at h

theorem matchFrom_beginText (n : Nat) (r : Regex) : ∀ s : List Char, s.length < n →
    matchFrom (.cat .beginText r) n s = false := by
  intro s
  induction s with
  | nil =>
    intro h
    have h' : ¬ (0 = n) := by simp at h; omega
    simp [matchFrom, Regex.exec, Regex.run, h']
  | cons c cs ih =>
    intro h
    have h' : ¬ (cs.length + 1 = n) := by simp at h; omega
    have h'' : cs.length < n := by simp at h; omega
    simp [matchFrom, Regex.exec, Regex.run, h', ih h'']

theorem MatchString_beginText (r : Regex) (s : List Char)
    (h : MatchString (.cat .beginText r) s = true) : r.run s.length s [] ≠ [] := by
  intro hnil
  cases s with
  | nil =>
    simp only [List.length_nil] at hnil
    simp [MatchString, matchFrom, Regex.exec, Regex.run, hnil] at h
  | cons c cs =>
    have h2 := matchFrom_beginText (cs.length + 1) r cs (by omega)
    simp only [List.length_cons] at hnil
    simp [MatchString, matchFrom, Regex.exec, Regex.run, hnil, h2] at h

/-- The template of the route of `getLanguage` only matches a path with a non-empty name
behind `/api/language/`. -/
theorem MatchString_reLanguageRoute (path : List Char)
    (h : MatchString reLanguageRoute path = true) :
    ∃ c cs, path = "/api/language/".toList ++ c :: cs := by
  have h1 := MatchString_beginText _ path h
  obtain ⟨s', hs', h2⟩ := run_lits_ne_nil _ _ _ _ _ h1
  cases s' with
  | nil => simp [Regex.run, plusRests] at h2
  | cons c cs => exact ⟨c, cs, hs'⟩

theorem route_getLanguage (m path : List Char) (h : route m path = .ok .getLanguage) :
    MatchString reLanguageRoute path = true := by
  unfold route at h
  cases hf : routes.find? (fun rt => MatchString rt.1 path) with
  | none => simp [hf] at h
  | some rt =>
    have hp := List.find?_some hf
    have hmem := List.mem_of_find?_eq_some hf
    simp only [hf] at h
    split at h
    · simp only [Except.ok.injEq] at h
      simp only [routes, List.mem_cons, List.mem_singleton, List.not_mem_nil, or_false] at hmem
      rcases hmem with rfl | rfl | rfl
      · simp at h
      · simp at h
      · exact hp
    · simp at h

/-- A request in canonical form with the route of `getLanguage` reaches the handler. -/
theorem ServeHTTP_getLanguage (tbl : Char → Char) (gh : Remote) (now : List Char)
    (r : Request) (hc : cleanPath r.Path = r.Path)
    (h : route r.Method r.Path = .ok .getLanguage) :
    ServeHTTP tbl gh now r = getLanguage tbl gh now r := by
  unfold ServeHTTP
  rw [if_neg (not_not.2 hc), h]

/-- The server answers a path that is not in canonical form with 301. -/
theorem ServeHTTP_redirect (tbl : Char → Char) (gh : Remote) (now : List Char)
    (r : Request) (hc : cleanPath r.Path ≠ r.Path) :
    ServeHTTP tbl gh now r = .response 301 (.text []) := by
  unfold ServeHTTP
  rw [if_pos hc]

/-- The paths `/api/language/..` and `/api//languages` are not in canonical form. -/
theorem cleanPath_examples :
    cleanPath "/api/language/..".toList = "/api".toList ∧
      cleanPath "/api//languages".toList = "/api/languages".toList ∧
      cleanPath "/api/language/".toList = "/api/language/".toList ∧
      cleanPath "/api/language/go".toList = "/api/language/go".toList ∧
      cleanPath "/api/./language/C++/".toList = "/api/language/C++/".toList ∧
      cleanPath "/../".toList = "/".toList ∧ cleanPath [] = "/".toList := by
  decide

/-- C5, as the code has it: a request is only dispatched to `getLanguage` with a non-empty
name, so the slice of the first character is in bounds there; the server hands a request
with the route of `getLanguage` to the handler when its path is in canonical form and
answers it with a redirect (301) otherwise; the path `/api/language/` matches no route and
the router answers it with 404 without calling `getLanguage`. -/
theorem getLanguage_name_nonempty (tbl : Char → Char) (gh : Remote) (now : List Char)
    (r : Request) (h : route r.Method r.Path = .ok .getLanguage) :
    TrimPrefix r.Path "/api/language/".toList ≠ [] ∧
      (∃ b, initial tbl (TrimPrefix r.Path "/api/language/".toList) = some b) ∧
      ServeHTTP tbl gh now r =
        (if cleanPath r.Path = r.Path then getLanguage tbl gh now r
          else .response 301 (.text [])) ∧
      ∀ r' : Request, r'.Path = "/api/language/".toList →
        ServeHTTP tbl gh now r' = .response 404 (.text "404 page not found\n".toList) := by
  obtain ⟨c, cs, hpath⟩ := MatchString_reLanguageRoute r.Path (route_getLanguage _ _ h)
  have hl : TrimPrefix r.Path "/api/language/".toList = c :: cs := by
    rw [hpath]
    have : ("/api/language/".toList).isPrefixOf ("/api/language/".toList ++ c :: cs) = true := by
      rw [List.isPrefixOf_iff_prefix]; exact List.prefix_append _ _
    simp only [TrimPrefix, this, if_true, List.drop_left]
  refine ⟨by rw [hl]; exact List.cons_ne_nil _ _, ?_, ?_, ?_⟩
  · rw [hl]
    exact ⟨_, initial_cons tbl c cs⟩
  · by_cases hc : cleanPath r.Path = r.Path
    · rw [if_pos hc]; exact ServeHTTP_getLanguage tbl gh now r hc h
    · rw [if_neg hc]; exact ServeHTTP_redirect tbl gh now r hc
  · intro r' hr'
    have hroute : ∀ m, route m "/api/language/".toList = .error 404 := by
      intro m
      have : routes.find? (fun rt => MatchString rt.1 "/api/language/".toList) = none := by
        decide
      unfold route
      rw [this]
    have hclean : cleanPath "/api/language/".toList = "/api/language/".toList := by decide
    unfold ServeHTTP
    rw [hr', if_neg (not_not.2 hclean), hroute]

theorem getLanguage_name_nonempty_witness :
    route "GET".toList "/api/language/go".toList = .ok .getLanguage ∧
      TrimPrefix "/api/language/go".toList "/api/language/".toList ≠ [] ∧
      ServeHTTP id exampleRemote "now".toList (exampleRequest "/api/language/go".toList) =
        getLanguage id exampleRemote "now".toList (exampleRequest "/api/language/go".toList) ∧
      route "GET".toList "/api/language/..".toList = .ok .getLanguage ∧
      ServeHTTP id exampleRemote "now".toList (exampleRequest "/api/language/..".toList) =
        .response 301 (.text []) := by
  have h1 := getLanguage_name_nonempty id exampleRemote "now".toList
    (exampleRequest "/api/language/go".toList) rfl
  have h2 := getLanguage_name_nonempty id exampleRemote "now".toList
    (exampleRequest "/api/language/..".toList) rfl
  have c1 : cleanPath (exampleRequest "/api/language/go".toList).Path
      = (exampleRequest "/api/language/go".toList).Path := by decide
  have c2 : cleanPath (exampleRequest "/api/language/..".toList).Path
      ≠ (exampleRequest "/api/language/..".toList).Path := by decide
  refine ⟨rfl, h1.1, ?_, rfl, ?_⟩
  · rw [h1.2.2.1, if_pos c1]
  · rw [h2.2.2.1, if_neg c2]

/-- C5, counterexample: called with the path `/api/language/`, `getLanguage` takes the
slice `l[0:1]` of the empty name and panics; it writes no client error. -/
theorem getLanguage_empty_name_panics :
    TrimPrefix "/api/language/".toList "/api/language/".toList = [] ∧
      getLanguage id exampleRemote "now".toList (exampleRequest "/api/language/".toList)
        = Outcome.panic :=
  ⟨rfl, rfl⟩

/-! ## `authorize` -/

/-- The token `authorize` builds from a header `Bearer t`: the scheme is removed, the
space behind it is not. -/
theorem authorize_bearer (t : List Char) :
    authorize ("Bearer ".toList ++ t) = { AccessToken := some (' ' :: t) } := by
  have h : authorize ("Bearer ".toList ++ t) =
      { AccessToken := some (ReplaceFirst "Bearer".toList [] ("Bearer ".toList ++ t)) } := rfl
  rw [h]
  have hp : ("Bearer".toList).isPrefixOf ("Bearer ".toList ++ t) = true := by
    rw [List.isPrefixOf_iff_prefix]
    exact ⟨' ' :: t, rfl⟩
  have h2 : ReplaceFirst "Bearer".toList [] ("Bearer ".toList ++ t) = ' ' :: t := by
    show ReplaceFirst "Bearer".toList [] ('B' :: ("earer ".toList ++ t)) = ' ' :: t
    unfold ReplaceFirst
    exact (if_pos hp).trans rfl
  rw [h2]

/-- C8, at the header `Bearer abc`: the access token of the client is ` abc`, with the
space that follows the scheme, not `abc`; the empty header gives a client without token. -/
theorem authorize_bearer_abc :
    authorize "Bearer abc".toList = { AccessToken := some " abc".toList } ∧
      authorize "Bearer abc".toList ≠ { AccessToken := some "abc".toList } ∧
      authorize [] = { AccessToken := none } := by
  decide

/-! ## The body of `getLanguage` -/

/-- The members of the body are written under the Go names of the fields: the tags of the
response types have the quote before `json`, so `reflect` finds no `json` key in them. -/
theorem LanguageResponse_toJson (r : LanguageResponse) :
    r.toJson = .obj [("Code".toList, .obj [("Contents".toList, .str r.Code.Contents)]),
      ("Language".toList, .obj [("Name".toList, .str r.Language.Name),
        ("Extension".toList, .str r.Language.Extension)]),
      ("RequestedAt".toList, .str r.RequestedAt)] := rfl

/-- C7, at the request for `go` against a bucket `g` with the entry `Go.go` holding
`package main`: the body has the keys `Code`, `Language` and `RequestedAt` (with
`Contents`, `Name` and `Extension` inside), not `code`, `language` and `requested_at`. -/
theorem getLanguage_body_go :
    getLanguage id exampleRemote "2022-12-01T00:00:00Z".toList
        (exampleRequest "/api/language/go".toList) =
      .response 200 (.json (.obj [
        ("Code".toList, .obj [("Contents".toList, .str "package main".toList)]),
        ("Language".toList, .obj [("Name".toList, .str "Go".toList),
          ("Extension".toList, .str ".go".toList)]),
        ("RequestedAt".toList, .str "2022-12-01T00:00:00Z".toList)])) ∧
      (LanguageResponse.toJson ⟨⟨"package main".toList⟩, ⟨"Go".toList, ".go".toList⟩,
        "2022-12-01T00:00:00Z".toList⟩).keys ≠
        ["code".toList, "language".toList, "requested_at".toList] ∧
      (LanguageResponse.toJson ⟨⟨"package main".toList⟩, ⟨"Go".toList, ".go".toList⟩,
        "2022-12-01T00:00:00Z".toList⟩).get "code".toList = none ∧
      ErrorResponse.fields.map jsonKey = [some "status_code".toList, some "message".toList] :=
  ⟨rfl, by decide, rfl, by decide⟩

/-! ## `findLanguages`: a well-formed list item -/

theorem head?_flatMap_first {α β : Type} (f : α → List β) (l1 l2 : List α) (x : α) (v : β)
    (h1 : ∀ y ∈ l1, f y = []) (hx : (f x).head? = some v) :
    ((l1 ++ x :: l2).flatMap f).head? = some v := by
  induction l1 with
  | nil =>
    cases hfx : f x with
    | nil => simp [hfx] at hx
    | cons a as => simp [hfx] at hx; simp [hfx, hx]
  | cons y ys ih =>
    have hy : f y = [] := h1 y (by simp)
    simp only [List.cons_append, List.flatMap_cons, hy, List.nil_append]
    exact ih (fun z hz => h1 z (by simp [hz]))

theorem starRests_append (cls : CharClass) (b : List Char) : ∀ a : List Char,
    (∀ c ∈ a, cls.test c = true) → ∃ l2, starRests cls (a ++ b) = starRests cls b ++ l2 := by
  intro a
  induction a with
  | nil => intro _; exact ⟨[], by simp⟩
  | cons c cs ih =>
    intro h
    obtain ⟨l2, hl2⟩ := ih (fun x hx => h x (by simp [hx]))
    refine ⟨l2 ++ [c :: cs ++ b], ?_⟩
    simp [starRests, h c (by simp), hl2]

theorem plusRests_append (cls : CharClass) (b a : List Char) (ha : a ≠ [])
    (h : ∀ c ∈ a, cls.test c = true) : ∃ l2, plusRests cls (a ++ b) = starRests cls b ++ l2 := by
  cases a with
  | nil => exact absurd rfl ha
  | cons c cs =>
    obtain ⟨l2, hl2⟩ := starRests_append cls b cs (fun x hx => h x (by simp [hx]))
    exact ⟨l2, by simp [plusRests, h c (by simp), hl2]⟩

theorem anyNotNL_test (a : List Char) (h : '\n' ∉ a) :
    ∀ c ∈ a, CharClass.anyNotNL.test c = true := by
  intro c hc
  have : c ≠ '\n' := fun e => h (e ▸ hc)
  simp [CharClass.test, this]

/-- No suffix of `(t)\n` begins with `](` when `t` does not hold `](`. -/
theorem no_separator_suffix (t y z : List Char) (hsep : ¬ [']', '('] <:+: t)
    (hy : y <:+ '(' :: (t ++ [')', '\n'])) : y ≠ ']' :: '(' :: z := by
  rintro rfl
  rcases List.suffix_cons_iff.1 hy with h | h
  · simp at h
  · obtain ⟨p, hp⟩ := h
    rcases List.append_eq_append_iff.1 hp with ⟨a', h1, h2⟩ | ⟨c', h1, h2⟩
    · match a', h1, h2 with
      | [], _, h2 => simp at h2
      | [x], _, h2 => simp at h2
      | x :: x' :: a'', h1, h2 =>
        simp only [List.cons_append, List.cons.injEq] at h2
        obtain ⟨rfl, rfl, _⟩ := h2
        exact hsep ⟨p, a'', by simp [h1]⟩
    · match c', h2 with
      | [], h2 => simp at h2
      | [x], h2 => simp at h2
      | [x, x'], h2 => simp at h2
      | x :: x' :: x'' :: c'', h2 => simp at h2

/-- The tail `.+\)\n` of the pattern on `t)\n`. -/
theorem run_target (n : Nat) (t : List Char) (caps : List (List Char)) (ht : t ≠ [])
    (htn : '\n' ∉ t) :
    ((Regex.cat (.plus .anyNotNL) (.cat (.char (.lit ')')) (.char (.lit '\n')))).run n
      (t ++ [')', '\n']) caps).head? = some ([], caps) := by
  obtain ⟨l2, hl2⟩ := plusRests_append .anyNotNL [')', '\n'] t ht (anyNotNL_test t htn)
  have hs : starRests .anyNotNL [')', '\n'] = [['\n']] ++ [')', '\n'] :: [] := by decide
  simp only [Regex.run, hl2, hs, List.map_append, List.append_assoc]
  apply head?_flatMap_first
  · intro y hy
    simp only [List.map_cons, List.map_nil, List.mem_singleton] at hy
    subst hy
    simp [Regex.run, CharClass.test]
  · simp [Regex.run, CharClass.test]

/-- The match of the pattern of `findLanguages` on a well-formed list item: the whole
line, with the display name in the group. -/
theorem exec_item (N : Nat) (n t : List Char) (hn : n ≠ []) (ht : t ≠ [])
    (hnn : '\n' ∉ n) (htn : '\n' ∉ t) (hsep : ¬ [']', '('] <:+: t) :
    reLanguages.exec N ("* [".toList ++ n ++ "](".toList ++ t ++ ")\n".toList) =
      some ⟨"* [".toList ++ n ++ "](".toList ++ t ++ ")\n".toList, [n]⟩ := by
  have hline : "* [".toList ++ n ++ "](".toList ++ t ++ ")\n".toList =
      '*' :: ' ' :: '[' :: (n ++ ']' :: '(' :: (t ++ [')', '\n'])) := by simp
  obtain ⟨l2, hl2⟩ := plusRests_append .anyNotNL (']' :: '(' :: (t ++ [')', '\n'])) n hn
    (anyNotNL_test n hnn)
  have hs : starRests .anyNotNL (']' :: '(' :: (t ++ [')', '\n'])) =
      starRests .anyNotNL ('(' :: (t ++ [')', '\n'])) ++
        (']' :: '(' :: (t ++ [')', '\n'])) :: [] := by
    simp [starRests, CharClass.test]
  have hrun : (reLanguages.run N ('*' :: ' ' :: '[' :: (n ++ ']' :: '(' :: (t ++ [')', '\n'])))
      []).head? = some ([], [n]) := by
    simp only [reLanguages, Regex.run, CharClass.test, beq_self_eq_true, if_true,
      List.flatMap_cons, List.flatMap_nil, List.append_nil, hl2, hs, List.map_append,
      List.append_assoc, List.map_cons, List.map_nil, List.nil_append, List.singleton_append]
    apply head?_flatMap_first
    · intro y hy
      obtain ⟨y0, hy0, rfl⟩ := List.mem_map.1 hy
      obtain ⟨y1, hy1, rfl⟩ := List.mem_map.1 hy0
      have hsuf := starRests_suffix _ _ _ hy1
      match y1, hsuf with
      | [], _ => rfl
      | [a], _ => by_cases ha : a = ']' <;> simp [ha]
      | a :: a' :: z, hsuf =>
        by_cases ha : a = ']'
        · by_cases ha' : a' = '('
          · subst ha; subst ha'
            exact absurd rfl (no_separator_suffix t _ z hsep hsuf)
          · simp [ha, ha']
        · simp [ha]
    · have hcap : List.take ((n ++ ']' :: '(' :: (t ++ [')', '\n'])).length -
          (']' :: '(' :: (t ++ [')', '\n'])).length) (n ++ ']' :: '(' :: (t ++ [')', '\n']))
          = n := by
        have : (n ++ ']' :: '(' :: (t ++ [')', '\n'])).length -
          (']' :: '(' :: (t ++ [')', '\n'])).length = n.length := by simp
        rw [this, List.take_left]
      have := run_target N t [n] ht htn
      simp only [List.nil_append] at hcap ⊢
      simp only [hcap]
      simpa [Regex.run, CharClass.test] using this
  rw [hline]
  unfold Regex.exec
  rw [hrun]
  simp

/-- A match that covers the whole text is the only one the search delivers. -/
theorem allMatches_single (re : Regex) (N : Nat) (c : Char) (cs : List Char) (m : Match)
    (h : re.exec N (c :: cs) = some m) (hlen : m.text.length = cs.length + 1) :
    allMatches re N 0 (c :: cs) = [m] := by
  have hskip := allMatches_skip re N cs []
  simp only [List.append_nil, allMatches_nil] at hskip
  simp only [allMatches, h, hlen, Nat.add_sub_cancel, hskip]

/-- On a well-formed list item `findLanguages` returns one entry; its name is the display
name, its extension is cut out of the whole matched line. -/
theorem findLanguages_item (n t : List Char) (hn : n ≠ []) (ht : t ≠ [])
    (hnn : '\n' ∉ n) (htn : '\n' ∉ t) (hsep : ¬ [']', '('] <:+: t) :
    findLanguages ("* [".toList ++ n ++ "](".toList ++ t ++ ")\n".toList) =
      [{ Name := n,
         Extension := TrimSuffix
           (Ext ("* [".toList ++ n ++ "](".toList ++ t ++ ")\n".toList)) [')', '\n'] }] := by
  have he := exec_item ("* [".toList ++ n ++ "](".toList ++ t ++ ")\n".toList).length
    n t hn ht hnn htn hsep
  have hline : "* [".toList ++ n ++ "](".toList ++ t ++ ")\n".toList =
      '*' :: (' ' :: '[' :: (n ++ ']' :: '(' :: (t ++ [')', '\n']))) := by simp
  unfold findLanguages FindAllStringSubmatch
  generalize ("* [".toList ++ n ++ "](".toList ++ t ++ ")\n".toList).length = N at he ⊢
  rw [hline] at he ⊢
  rw [allMatches_single reLanguages N _ _ _ he (by simp)]
  simp [languageOfMatch]

theorem extLoop_acc : ∀ (rs acc : List Char),
    extLoop rs acc = if extLoop rs [] = [] then [] else extLoop rs [] ++ acc := by
  intro rs
  induction rs with
  | nil => intro acc; simp [extLoop]
  | cons c cs ih =>
    intro acc
    by_cases h1 : c = '/'
    · simp [extLoop, h1]
    · by_cases h2 : c = '.'
      · simp [extLoop, h2]
      · simp only [extLoop, h1, h2, if_false]
        rw [ih (c :: acc), ih [c]]
        by_cases h3 : extLoop cs [] = []
        · simp [h3]
        · simp [h3]

theorem extLoop_append (b : List Char) : ∀ (a acc : List Char), ('.' ∈ a ∨ '/' ∈ a) →
    extLoop (a ++ b) acc = extLoop a acc := by
  intro a
  induction a with
  | nil => intro acc h; simp at h
  | cons c cs ih =>
    intro acc h
    by_cases h1 : c = '/'
    · simp [extLoop, h1]
    · by_cases h2 : c = '.'
      · simp [extLoop, h2]
      · have e : extLoop (c :: cs ++ b) acc = extLoop (cs ++ b) (c :: acc) := by
          show extLoop (c :: (cs ++ b)) acc = _
          simp only [extLoop, h1, h2, if_false]
        have e' : extLoop (c :: cs) acc = extLoop cs (c :: acc) := by
          simp only [extLoop, h1, h2, if_false]
        rw [e, e']
        apply ih
        rcases h with h | h
        · left; simpa [Ne.symm h2] using h
        · right; simpa [Ne.symm h1] using h

theorem extLoop_append_plain (b : List Char) : ∀ (a acc : List Char), '.' ∉ a → '/' ∉ a →
    extLoop (a ++ b) acc = extLoop b (a.reverse ++ acc) := by
  intro a
  induction a with
  | nil => intro acc _ _; simp
  | cons c cs ih =>
    intro acc h1 h2
    have hc1 : c ≠ '/' := fun e => h2 (by simp [e])
    have hc2 : c ≠ '.' := fun e => h1 (by simp [e])
    have e : extLoop (c :: cs ++ b) acc = extLoop (cs ++ b) (c :: acc) := by
      show extLoop (c :: (cs ++ b)) acc = _
      simp only [extLoop, hc1, hc2, if_false]
    rw [e, ih (c :: acc) (fun h => h1 (by simp [h])) (fun h => h2 (by simp [h]))]
    simp

/-- The extension `findLanguages` computes for a list item whose target holds a dot or a
slash is the extension of the target. -/
theorem Ext_item (n t : List Char) (h : '.' ∈ t ∨ '/' ∈ t) :
    TrimSuffix (Ext ("* [".toList ++ n ++ "](".toList ++ t ++ ")\n".toList)) [')', '\n']
      = Ext t := by
  have hrev : ("* [".toList ++ n ++ "](".toList ++ t ++ ")\n".toList).reverse =
      '\n' :: ')' :: (t.reverse ++ ("* [".toList ++ n ++ "](".toList).reverse) := by simp
  have h' : '.' ∈ t.reverse ∨ '/' ∈ t.reverse := by simpa using h
  have hE : Ext ("* [".toList ++ n ++ "](".toList ++ t ++ ")\n".toList) =
      if Ext t = [] then [] else Ext t ++ [')', '\n'] := by
    unfold Ext
    rw [hrev]
    simp only [extLoop, Char.reduceEq, if_false]
    rw [extLoop_append _ _ _ h', extLoop_acc]
  rw [hE]
  by_cases he : Ext t = []
  · simp [he, TrimSuffix]
  · rw [if_neg he]
    have := TrimSuffix_append (Ext t ++ [')', '\n']) [')', '\n'] (List.suffix_append _ _)
    exact List.append_cancel_right this

/-- The extension `findLanguages` computes for a list item whose target holds neither a dot
nor a slash: the extension of the display name followed by `](` and the target, empty only
when the display name has no extension either. -/
theorem Ext_item_plain (n t : List Char) (h1 : '.' ∉ t) (h2 : '/' ∉ t) :
    TrimSuffix (Ext ("* [".toList ++ n ++ "](".toList ++ t ++ ")\n".toList)) [')', '\n']
      = if Ext n = [] then [] else Ext n ++ "](".toList ++ t := by
  have hrev : ("* [".toList ++ n ++ "](".toList ++ t ++ ")\n".toList).reverse =
      '\n' :: ')' :: (t.reverse ++ ('(' :: ']' :: (n.reverse ++ ['[', ' ', '*']))) := by simp
  have hE : Ext ("* [".toList ++ n ++ "](".toList ++ t ++ ")\n".toList) =
      if Ext n = [] then [] else Ext n ++ ("](".toList ++ t ++ [')', '\n']) := by
    unfold Ext
    rw [hrev]
    simp only [extLoop, Char.reduceEq, if_false]
    rw [extLoop_append_plain _ _ _ (by simpa using h1) (by simpa using h2)]
    simp only [extLoop, Char.reduceEq, if_false, List.reverse_reverse]
    by_cases hn : '.' ∈ n ∨ '/' ∈ n
    · rw [extLoop_append _ _ _ (by simpa using hn), extLoop_acc]
      simp
    · simp only [not_or] at hn
      rw [extLoop_append_plain _ _ _ (by simpa using hn.1) (by simpa using hn.2)]
      have : extLoop n.reverse [] = [] := by
        have := extLoop_append_plain [] n.reverse [] (by simpa using hn.1) (by simpa using hn.2)
        simpa [extLoop] using this
      simp [extLoop, this]
  rw [hE]
  by_cases he : Ext n = []
  · simp [he, TrimSuffix]
  · rw [if_neg he, if_neg he]
    have := TrimSuffix_append (Ext n ++ ("](".toList ++ t ++ [')', '\n'])) [')', '\n']
      ⟨Ext n ++ ("](".toList ++ t), by simp⟩
    exact List.append_cancel_right (this.trans (by simp))

/-- On a well-formed list item whose target holds a dot or a slash, `findLanguages` returns
the display name and the extension of the target. -/
theorem findLanguages_item_target (n t : List Char) (hn : n ≠ []) (ht : t ≠ [])
    (hnn : '\n' ∉ n) (htn : '\n' ∉ t) (hsep : ¬ [']', '('] <:+: t)
    (h : '.' ∈ t ∨ '/' ∈ t) :
    findLanguages ("* [".toList ++ n ++ "](".toList ++ t ++ ")\n".toList) =
      [{ Name := n, Extension := Ext t }] := by
  rw [findLanguages_item n t hn ht hnn htn hsep, Ext_item n t h]

/-! ## `findLanguages`: one list item -/

/-- C1, at the line `* [Node.js](node)`: the link target `node` has no extension, yet the
entry gets the extension `.js](node`, cut out of the display name and the target. -/
theorem findLanguages_node_js :
    findLanguages "* [Node.js](node)\n".toList =
        [{ Name := "Node.js".toList, Extension := ".js](node".toList }] ∧
      Ext "node".toList = [] := by
  decide

end Hwaas
